import Mathlib

/-!
Verification of the mini proof-of-work blockchain (`miner_demo.py`).

The embedding translates the source faithfully:
* `sha256_hex` is a full executable SHA-256 over the UTF-8 bytes of a string,
  producing the lowercase hex digest, mirroring `hashlib.sha256(... ).hexdigest()`.
* `Block` / `Blockchain` mirror the Python classes; `time.time()` is a
  nondeterministic input, so creation timestamps enter as an explicit
  `String` parameter (the textual rendering used in the header f-string).
* Payloads are ordered string-keyed mappings; `json.dumps(..., sort_keys=True,
  separators=(",", ":"))` is modelled by `dumps` (sorted keys, compact
  separators, Python's `ensure_ascii` string escaping).  Numeric payload
  values carry their JSON rendering as a string, since Python float `repr`
  is outside the scope of the claims.
* The unbounded `while True` mining loop is embedded with explicit fuel;
  running out of fuel is the `fuelOut` outcome, a Python exception is the
  corresponding `Except.error` outcome.
-/

namespace MiniChain

/-! ## SHA-256 over byte lists (Nat-valued, executable) -/

/-- UTF-8 encoding of one code point, as bytes (Nat each < 256). -/
def utf8Char (c : Char) : List Nat :=
  let n := c.toNat
  if n < 128 then [n]
  else if n < 2048 then [192 + n / 64, 128 + n % 64]
  else if n < 65536 then [224 + n / 4096, 128 + (n / 64) % 64, 128 + n % 64]
  else [240 + n / 262144, 128 + (n / 4096) % 64, 128 + (n / 64) % 64, 128 + n % 64]

/-- UTF-8 bytes of a string (`s.encode("utf-8")`). -/
def utf8 (s : String) : List Nat :=
  (s.toList.map utf8Char).flatten

/-- 32-bit exclusive or (operands stay below `2^32` throughout). -/
def xor32 (x y : Nat) : Nat := Nat.xor x y

/-- 32-bit conjunction. -/
def land32 (x y : Nat) : Nat := Nat.land x y

/-- 32-bit complement (valid for `x < 2^32`). -/
def not32 (x : Nat) : Nat := 4294967295 - x

/-- Rotate a 32-bit word right by `n`. -/
def rotr32 (n x : Nat) : Nat := (x / 2 ^ n + x % 2 ^ n * 2 ^ (32 - n)) % 4294967296

/-- SHA-256 choice function. -/
def sha256Ch (x y z : Nat) : Nat := xor32 (land32 x y) (land32 (not32 x) z)

/-- SHA-256 majority function. -/
def sha256Maj (x y z : Nat) : Nat := xor32 (land32 x y) (xor32 (land32 x z) (land32 y z))

/-- SHA-256 big sigma 0. -/
def bigS0 (x : Nat) : Nat := xor32 (rotr32 2 x) (xor32 (rotr32 13 x) (rotr32 22 x))

/-- SHA-256 big sigma 1. -/
def bigS1 (x : Nat) : Nat := xor32 (rotr32 6 x) (xor32 (rotr32 11 x) (rotr32 25 x))

/-- SHA-256 small sigma 0. -/
def smallS0 (x : Nat) : Nat := xor32 (rotr32 7 x) (xor32 (rotr32 18 x) (x / 2 ^ 3))

/-- SHA-256 small sigma 1. -/
def smallS1 (x : Nat) : Nat := xor32 (rotr32 17 x) (xor32 (rotr32 19 x) (x / 2 ^ 10))

/-- The 64 SHA-256 round constants of FIPS 180-4, in decimal. -/
def sha256K : List Nat :=
  [1116352408, 1899447441, 3049323471, 3921009573, 961987163,
   1508970993, 2453635748, 2870763221, 3624381080, 310598401,
   607225278, 1426881987, 1925078388, 2162078206, 2614888103,
   3248222580, 3835390401, 4022224774, 264347078, 604807628,
   770255983, 1249150122, 1555081692, 1996064986, 2554220882,
   2821834349, 2952996808, 3210313671, 3336571891, 3584528711,
   113926993, 338241895, 666307205, 773529912, 1294757372,
   1396182291, 1695183700, 1986661051, 2177026350, 2456956037,
   2730485921, 2820302411, 3259730800, 3345764771, 3516065817,
   3600352804, 4094571909, 275423344, 430227734, 506948616,
   659060556, 883997877, 958139571, 1322822218, 1537002063,
   1747873779, 1955562222, 2024104815, 2227730452, 2361852424,
   2428436474, 2756734187, 3204031479, 3329325298]

/-- The eight SHA-256 initial hash words of FIPS 180-4, in decimal. -/
def sha256H0 : List Nat :=
  [1779033703, 3144134277, 1013904242, 2773480762,
   1359893119, 2600822924, 528734635, 1541459225]

/-- Big-endian byte rendering of `n` on `k` bytes. -/
def beBytes : Nat → Nat → List Nat
  | 0, _ => []
  | k + 1, n => beBytes k (n / 256) ++ [n % 256]

/-- SHA-256 padding: append `0x80`, zeros, and the 64-bit big-endian bit length. -/
def sha256Pad (msg : List Nat) : List Nat :=
  let len := msg.length
  let zeroCount := (120 - (len + 1) % 64) % 64
  msg ++ [128] ++ List.replicate zeroCount 0 ++ beBytes 8 (8 * len)

/-- Split a byte list into 64-byte chunks (fuel-driven; `fuel ≥ length` suffices). -/
def toChunks : Nat → List Nat → List (List Nat)
  | 0, _ => []
  | _, [] => []
  | fuel + 1, l => l.take 64 :: toChunks fuel (l.drop 64)

/-- Combine bytes into big-endian 32-bit words. -/
def toWords : List Nat → List Nat
  | a :: b :: c :: d :: rest => (((a * 256 + b) * 256 + c) * 256 + d) :: toWords rest
  | _ => []

/-- Extend the message schedule; the word list is kept reversed (newest first). -/
def sha256Sched : Nat → List Nat → List Nat
  | 0, r => r
  | k + 1, r =>
    sha256Sched k
      (((smallS1 (r.getD 1 0) + r.getD 6 0 + smallS0 (r.getD 14 0) + r.getD 15 0) % 4294967296) :: r)

/-- One SHA-256 compression round on the eight-word state. -/
def sha256Round (st : List Nat) (kw : Nat × Nat) : List Nat :=
  match st with
  | [a, b, c, d, e, f, g, h] =>
    let t1 := (h + bigS1 e + sha256Ch e f g + kw.1 + kw.2) % 4294967296
    let t2 := (bigS0 a + sha256Maj a b c) % 4294967296
    [(t1 + t2) % 4294967296, a, b, c, (d + t1) % 4294967296, e, f, g]
  | st => st

/-- Process one 64-byte chunk. -/
def sha256Chunk (h : List Nat) (chunk : List Nat) : List Nat :=
  let w := (sha256Sched 48 (toWords chunk).reverse).reverse
  let st := (sha256K.zip w).foldl sha256Round h
  (h.zip st).map (fun p => (p.1 + p.2) % 4294967296)

/-- SHA-256 of a byte list, as eight 32-bit words. -/
def sha256Words (msg : List Nat) : List Nat :=
  (toChunks (msg.length + 9 + 64) (sha256Pad msg)).foldl sha256Chunk sha256H0

/-- Lowercase hex digit. -/
def toHexDigit (n : Nat) : Char :=
  if n < 10 then Char.ofNat (48 + n) else Char.ofNat (87 + n)

/-- `k`-digit lowercase hex rendering of `n` (most significant first). -/
def hexN : Nat → Nat → List Char
  | 0, _ => []
  | k + 1, n => hexN k (n / 16) ++ [toHexDigit (n % 16)]

/-- `sha256_hex(s)`: lowercase hex SHA-256 digest of the UTF-8 bytes of `s`
(`hashlib.sha256(s.encode("utf-8")).hexdigest()`). -/
def sha256_hex (s : String) : String :=
  String.mk ((sha256Words (utf8 s)).map (hexN 8)).flatten

/-! ## Canonical JSON payload serialization
(`json.dumps(data, sort_keys=True, separators=(",", ":"))`) -/

/-- A JSON payload value.  Strings are escaped as Python's `json.dumps` does
(`ensure_ascii=True`); a numeric value carries its JSON rendering as a string,
since Python float `repr` is outside the scope of the claims. -/
inductive JVal where
  | jstr (s : String)
  | jnum (rendering : String)
  | jbool (b : Bool)
deriving DecidableEq, Repr

/-- A block payload: an ordered mapping from string keys to values
(a Python dict, so keys are unique). -/
abbrev Payload : Type := List (String × JVal)

/-- Four-digit lowercase hex rendering. -/
def hex4 (n : Nat) : String :=
  String.mk [toHexDigit (n / 4096 % 16), toHexDigit (n / 256 % 16),
    toHexDigit (n / 16 % 16), toHexDigit (n % 16)]

/-- Python `json.dumps` escaping of one character (`ensure_ascii=True`):
quote, backslash and the short control escapes, `\uXXXX` for other controls
and for every non-ASCII character (surrogate pairs above the BMP). -/
def escChar (c : Char) : String :=
  if c = '"' then "\\\""
  else if c = '\\' then "\\\\"
  else if c = '\n' then "\\n"
  else if c = '\t' then "\\t"
  else if c = '\r' then "\\r"
  else if c = Char.ofNat 8 then "\\b"
  else if c = Char.ofNat 12 then "\\f"
  else if c.toNat < 32 then "\\u" ++ hex4 c.toNat
  else if c.toNat < 127 then String.mk [c]
  else if c.toNat < 65536 then "\\u" ++ hex4 c.toNat
  else
    let n := c.toNat - 65536
    "\\u" ++ hex4 (55296 + n / 1024) ++ "\\u" ++ hex4 (56320 + n % 1024)

/-- JSON rendering of one value. -/
def dumpJ : JVal → String
  | .jstr s => "\"" ++ String.join (s.toList.map escChar) ++ "\""
  | .jnum r => r
  | .jbool b => if b then "true" else "false"

/-- Insert an entry into a key-sorted entry list. -/
def insertEntry (p : String × JVal) : List (String × JVal) → List (String × JVal)
  | [] => [p]
  | q :: t => if p.1 ≤ q.1 then p :: q :: t else q :: insertEntry p t

/-- Sort payload entries by key (Python `sort_keys=True`; dict keys are unique,
so stability is immaterial). -/
def sortEntries : List (String × JVal) → List (String × JVal)
  | [] => []
  | p :: t => insertEntry p (sortEntries t)

/-- `json.dumps(data, sort_keys=True, separators=(",", ":"))`. -/
def dumps (d : Payload) : String :=
  "\x7b" ++
    String.intercalate ","
      ((sortEntries d).map (fun p => dumpJ (.jstr p.1) ++ ":" ++ dumpJ p.2)) ++
    "\x7d"

/-! ## The Block data model (`class Block`) -/

/-- One ledger entry, mirroring `Block.__init__`'s fields.  `timestamp` is the
textual rendering of the `time.time()` value captured at construction (a
nondeterministic input, hence a constructor parameter of the model). -/
structure Block where
  index : Nat
  timestamp : String
  data : Payload
  previousHash : String
  nonce : Nat
  hash : String
deriving DecidableEq, Repr

/-- `Block.header_string`: the canonical `|`-joined header rendering. -/
def Block.headerString (b : Block) : String :=
  toString b.index ++ "|" ++ b.timestamp ++ "|" ++ b.previousHash ++ "|" ++
    dumps b.data ++ "|" ++ toString b.nonce

/-- `Block.compute_hash` — SHA-256 hex digest of the current header. -/
def Block.computeHash (b : Block) : String :=
  sha256_hex b.headerString

/-- `Block.__init__(index, data, previous_hash)`: nonce starts at 0 and the
stored hash is initialized to the (unmined) `compute_hash()`. -/
def Block.init (index : Nat) (timestamp : String) (data : Payload)
    (previousHash : String) : Block :=
  let b : Block :=
    { index := index, timestamp := timestamp, data := data,
      previousHash := previousHash, nonce := 0, hash := "" }
  { b with hash := b.computeHash }

/-- Python `s.startswith(t)`. -/
def strStartsWith (s t : String) : Bool :=
  t.toList.isPrefixOf s.toList

/-- `"0" * d` for an `int` difficulty (empty for negative `d`). -/
def zeros (d : Int) : String :=
  String.mk (List.replicate d.toNat '0')

/-- The 64-character zero sentinel `"0" * 64`. -/
def zeros64 : String :=
  String.mk (List.replicate 64 '0')

/-- Failure outcomes of the embedded effectful operations: a failed
`assert` (a raised `AssertionError`), exhausted fuel for the unbounded
`while True` mining loop, and an `IndexError` from indexing an empty list. -/
inductive Err where
  | assertFailed
  | fuelOut
  | indexError
deriving DecidableEq, Repr

/-- The state the mining loop passes to its next iteration after a failed
test: the freshly computed hash was stored, then the nonce was incremented. -/
def mineNext (b : Block) : Block :=
  { b with hash := b.computeHash, nonce := b.nonce + 1 }

/-- The `while True` loop of `Block.mine`, with explicit fuel: store the
freshly computed hash, test it against the target, and otherwise increment
the nonce and continue. -/
def mineAux (target : String) : Nat → Block → Except Err Block
  | 0, _ => .error .fuelOut
  | fuel + 1, b =>
    let h := b.computeHash
    if strStartsWith h target then .ok { b with hash := h }
    else mineAux target fuel (mineNext b)

/-- `Block.mine(difficulty)`: `assert difficulty >= 0`, then search nonces
for a hash with `difficulty` leading `'0'` characters. -/
def mine (difficulty : Int) (fuel : Nat) (b : Block) : Except Err Block :=
  if 0 ≤ difficulty then mineAux (zeros difficulty) fuel b
  else .error .assertFailed

/-! ## The Chain (`class Blockchain`) -/

/-- The chain state: the fixed difficulty and the ordered block sequence. -/
structure Blockchain where
  difficulty : Int
  chain : List Block
deriving DecidableEq, Repr

/-- `Blockchain._create_genesis`: construct and mine the genesis block. -/
def createGenesis (difficulty : Int) (ts : String) (fuel : Nat) : Except Err Block :=
  mine difficulty fuel (Block.init 0 ts [("msg", .jstr "Genesis Block")] zeros64)

/-- `Blockchain.__init__(difficulty)`: the chain starts as the singleton list
holding the mined genesis block. -/
def mkBlockchain (difficulty : Int) (ts : String) (fuel : Nat) : Except Err Blockchain :=
  (createGenesis difficulty ts fuel).map (fun g => ⟨difficulty, [g]⟩)

/-- `Blockchain.tip`: the last block (`self.chain[-1]`), when one exists. -/
def Blockchain.tip? (bc : Blockchain) : Option Block :=
  bc.chain.getLast?

/-- `Blockchain.add_block(data)`: construct a block on top of the tip, mine
it, append it, and return it alongside the updated chain. -/
def add_block (bc : Blockchain) (data : Payload) (ts : String) (fuel : Nat) :
    Except Err (Blockchain × Block) :=
  match bc.chain.getLast? with
  | none => .error .indexError
  | some t =>
    (mine bc.difficulty fuel (Block.init (t.index + 1) ts data t.hash)).map
      (fun m => ({ bc with chain := bc.chain ++ [m] }, m))

/-- The reason `Blockchain.is_valid` reports on its first failing check. -/
inductive Reason where
  | hashMismatch
  | difficultyFail
  | badGenesis
  | brokenLink
deriving DecidableEq, Repr

/-- Outcome of `Blockchain.is_valid`: success, or the first failing block
index with its reason (the code prints the reason and returns `False`). -/
inductive ValResult where
  | ok
  | fail (i : Nat) (r : Reason)
deriving DecidableEq, Repr

/-- The `for i, block in enumerate(self.chain)` loop of `is_valid`, with the
previous block carried along (`prev = none` exactly at `i == 0`). -/
def isValidAux (target : String) (i : Nat) (prev : Option Block) :
    List Block → ValResult
  | [] => .ok
  | b :: rest =>
    if b.hash ≠ b.computeHash then .fail i .hashMismatch
    else if ¬ strStartsWith b.hash target then .fail i .difficultyFail
    else
      match prev with
      | none =>
        if b.previousHash ≠ zeros64 then .fail i .badGenesis
        else isValidAux target (i + 1) (some b) rest
      | some p =>
        if b.previousHash ≠ p.hash then .fail i .brokenLink
        else isValidAux target (i + 1) (some b) rest

/-- `Blockchain.is_valid`, with the printed failure reasons made explicit. -/
def is_valid (bc : Blockchain) : ValResult :=
  isValidAux (zeros bc.difficulty) 0 none bc.chain

/-- `is_valid` threaded through the chain state it reads: every exit path
returns the state untouched, mirroring that the Python method only reads
`self.difficulty` and `self.chain`. -/
def isValidAuxS (target : String) (i : Nat) (prev : Option Block)
    (l : List Block) (bc : Blockchain) : ValResult × Blockchain :=
  match l with
  | [] => (.ok, bc)
  | b :: rest =>
    if b.hash ≠ b.computeHash then (.fail i .hashMismatch, bc)
    else if ¬ strStartsWith b.hash target then (.fail i .difficultyFail, bc)
    else
      match prev with
      | none =>
        if b.previousHash ≠ zeros64 then (.fail i .badGenesis, bc)
        else isValidAuxS target (i + 1) (some b) rest bc
      | some p =>
        if b.previousHash ≠ p.hash then (.fail i .brokenLink, bc)
        else isValidAuxS target (i + 1) (some b) rest bc

/-- State-threaded `is_valid`: result together with the post-call state. -/
def is_validS (bc : Blockchain) : ValResult × Blockchain :=
  isValidAuxS (zeros bc.difficulty) 0 none bc.chain bc

/-! ## The tamper operation (menu option 4 of the interactive demo) -/

/-- Outcome of tampering: the updated chain, or the two rejection messages. -/
inductive TamperResult where
  | ok (bc : Blockchain)
  | unknownField
  | indexOutOfRange
deriving DecidableEq, Repr

/-- `key in block.data` for the payload mapping. -/
def hasKey (k : String) (d : Payload) : Bool :=
  d.any (fun p => p.1 = k)

/-- `block.data[key] = new_value` on the payload mapping (keys are unique). -/
def setKey (k : String) (v : JVal) (d : Payload) : Payload :=
  d.map (fun p => if p.1 = k then (p.1, v) else p)

/-- The tamper operation: bounds-check the index, require the key to exist in
the block's payload, and replace the value, leaving `hash` and `nonce`
untouched. -/
def tamper (bc : Blockchain) (i : Nat) (k : String) (v : JVal) : TamperResult :=
  if h : i < bc.chain.length then
    if hasKey k bc.chain[i].data then
      .ok { bc with chain := bc.chain.set i { bc.chain[i] with data := setKey k v bc.chain[i].data } }
    else .unknownField
  else .indexOutOfRange

/-- Fold `add_block` over a list of payload/timestamp pairs. -/
def buildChain (bc : Blockchain) (fuel : Nat) :
    List (Payload × String) → Except Err Blockchain
  | [] => .ok bc
  | (p, ts) :: rest =>
    match add_block bc p ts fuel with
    | .error e => .error e
    | .ok r => buildChain r.1 fuel rest

/-! ## Concrete fixtures (used by witnesses and counterexamples) -/

/-- A freshly constructed block used as a concrete test input. -/
def testBlock : Block := Block.init 1 "1700000000.0" [("k", JVal.jstr "x")] "p"

/-- `testBlock` after a difficulty-0 mining run (one hash write, no search). -/
def testBlockMined : Block := { testBlock with hash := testBlock.computeHash }

/-- The genesis block as constructed with timestamp rendering `"0"`. -/
def genesisInit : Block := Block.init 0 "0" [("msg", .jstr "Genesis Block")] zeros64

/-- The genesis block after difficulty-0 mining. -/
def genesisMined : Block := { genesisInit with hash := genesisInit.computeHash }

/-- A difficulty-0 chain holding just the mined genesis block. -/
def bcG : Blockchain := ⟨0, [genesisMined]⟩

/-- The block `add_block` constructs on top of `bcG` with payload `{"k": "x"}`. -/
def nextInit : Block := Block.init 1 "1" [("k", .jstr "x")] genesisMined.hash

/-- That block after difficulty-0 mining. -/
def nextMined : Block := { nextInit with hash := nextInit.computeHash }

/-- The difficulty-0 chain after appending one block to `bcG`. -/
def bcG2 : Blockchain := ⟨0, [genesisMined, nextMined]⟩

/-- A block whose initial hash does not start with `'0'` (checked below), so
a difficulty-1 mining run must take at least one failing iteration. -/
def testB9 : Block := Block.init 0 "0" [("a", .jstr "b")] "p"

/-- The second block of `bcG2` tampered with the value it already holds. -/
def tamperedSameBlock : Block :=
  { nextMined with data := setKey "k" (JVal.jstr "x") nextMined.data }

/-- `bcG2` after the identity tamper `tamper(1, "k", "x")`. -/
def tamperedSameBC : Blockchain := ⟨0, [genesisMined, tamperedSameBlock]⟩

/-- The second block of `bcG2` tampered with a genuinely different value. -/
def tamperedBlock : Block :=
  { nextMined with data := setKey "k" (JVal.jstr "CHANGED") nextMined.data }

/-- `bcG2` after the tamper `tamper(1, "k", "CHANGED")`. -/
def tamperedBC : Blockchain := ⟨0, [genesisMined, tamperedBlock]⟩

/-- An arbitrary chain state whose element 0 has a previous hash other than
the zero sentinel and a stale stored hash. -/
def cexBlock : Block :=
  { index := 0, timestamp := "0", data := [], previousHash := "x", nonce := 0, hash := "" }

/-- The one-block chain around `cexBlock`. -/
def cexBC : Blockchain := ⟨0, [cexBlock]⟩

/-! ## Helper lemmas -/

/-- `compute_hash` depends only on the five header fields, not on the stored
`hash`. -/
theorem computeHash_ext (b b' : Block) (h1 : b.index = b'.index)
    (h2 : b.timestamp = b'.timestamp) (h3 : b.data = b'.data)
    (h4 : b.previousHash = b'.previousHash) (h5 : b.nonce = b'.nonce) :
    b.computeHash = b'.computeHash := by
  cases b; cases b'
  simp only at h1 h2 h3 h4 h5
  subst h1 h2 h3 h4 h5
  simp only [Block.computeHash]
  exact congrArg sha256_hex rfl

/-- The stored `hash` field is not part of the canonical header, so
`compute_hash` ignores it. -/
theorem computeHash_set_hash (b : Block) (h : String) :
    Block.computeHash { b with hash := h } = b.computeHash :=
  computeHash_ext _ _ rfl rfl rfl rfl rfl

/-- One unfolding of the mining loop: compute the hash, test it, and either
stop (storing it) or continue from `mineNext`. -/
theorem mineAux_succ (target : String) (fuel : Nat) (b : Block) :
    mineAux target (fuel + 1) b =
      if strStartsWith b.computeHash target then .ok { b with hash := b.computeHash }
      else mineAux target fuel (mineNext b) := rfl

/-- Master specification of the mining loop: a successful run returns a block
whose stored hash is the digest of its final header and meets the target,
whose other fields are untouched, and whose nonce is the least satisfying
one at or after the starting nonce. -/
theorem mineAux_spec (target : String) (fuel : Nat) :
    ∀ b b' : Block, mineAux target fuel b = .ok b' →
      b'.hash = b'.computeHash ∧ strStartsWith b'.hash target = true ∧
      b'.index = b.index ∧ b'.timestamp = b.timestamp ∧ b'.data = b.data ∧
      b'.previousHash = b.previousHash ∧ b.nonce ≤ b'.nonce ∧
      ∀ m, b.nonce ≤ m → m < b'.nonce →
        strStartsWith (Block.computeHash { b with nonce := m }) target = false := by
  induction fuel with
  | zero => intro b b' h; exact absurd h (by simp [mineAux])
  | succ n ih =>
    intro b b' h
    rw [mineAux_succ] at h
    by_cases hs : strStartsWith b.computeHash target = true
    · rw [if_pos hs] at h
      cases h
      refine ⟨by simpa using (computeHash_set_hash b _).symm, by simpa using hs,
        rfl, rfl, rfl, rfl, Nat.le_refl _, ?_⟩
      intro m hm hm'
      exact absurd (Nat.lt_of_le_of_lt hm hm') (by simp)
    · rw [if_neg hs] at h
      obtain ⟨h1, h2, h3, h4, h5, h6, h7, h8⟩ := ih (mineNext b) b' h
      refine ⟨h1, h2, h3, h4, h5, h6, Nat.le_of_succ_le h7, ?_⟩
      intro m hm hm'
      rcases Nat.eq_or_lt_of_le hm with hme | hml
      · subst hme
        simpa using hs
      · have := h8 m hml hm'
        rwa [computeHash_ext ({ mineNext b with nonce := m }) ({ b with nonce := m })
          rfl rfl rfl rfl rfl] at this

/-- A successful `mine` implies the `assert difficulty >= 0` passed and the
loop succeeded on the target `"0" * difficulty`. -/
theorem mine_ok (d : Int) (fuel : Nat) (b b' : Block) (h : mine d fuel b = .ok b') :
    0 ≤ d ∧ mineAux (zeros d) fuel b = .ok b' := by
  by_cases hd : 0 ≤ d
  · exact ⟨hd, by simpa [mine, if_pos hd] using h⟩
  · rw [mine, if_neg hd] at h; cases h

/-- The link condition `is_valid` checks at one position: the genesis
sentinel at position 0 (`prev = none`), the predecessor's hash elsewhere. -/
def linkOk (prev : Option Block) (b : Block) : Prop :=
  match prev with
  | none => b.previousHash = zeros64
  | some p => b.previousHash = p.hash

instance (prev : Option Block) (b : Block) : Decidable (linkOk prev b) := by
  unfold linkOk; cases prev <;> infer_instance

/-- Unfolding of one `is_valid` loop iteration. -/
theorem isValidAux_cons (target : String) (i : Nat) (prev : Option Block)
    (b : Block) (rest : List Block) :
    isValidAux target i prev (b :: rest) =
      if b.hash ≠ b.computeHash then .fail i .hashMismatch
      else if ¬ strStartsWith b.hash target then .fail i .difficultyFail
      else if ¬ linkOk prev b then
        .fail i (match prev with | none => .badGenesis | some _ => .brokenLink)
      else isValidAux target (i + 1) (some b) rest := by
  cases prev <;> simp only [isValidAux, linkOk]

/-- A passing iteration continues into the tail. -/
theorem isValidAux_cons_pass (target : String) (i : Nat) (prev : Option Block)
    (b : Block) (rest : List Block) (h1 : b.hash = b.computeHash)
    (h2 : strStartsWith b.hash target = true) (h3 : linkOk prev b) :
    isValidAux target i prev (b :: rest) = isValidAux target (i + 1) (some b) rest := by
  rw [isValidAux_cons, if_neg (by simpa using h1), if_neg (by simpa using h2),
    if_neg (by simpa using h3)]

/-- A successful validation run decomposes at its head block. -/
theorem isValidAux_ok_head (target : String) (i : Nat) (prev : Option Block)
    (b : Block) (rest : List Block)
    (h : isValidAux target i prev (b :: rest) = .ok) :
    (b.hash = b.computeHash ∧ strStartsWith b.hash target = true ∧ linkOk prev b) ∧
      isValidAux target (i + 1) (some b) rest = .ok := by
  rw [isValidAux_cons] at h
  by_cases c1 : b.hash = b.computeHash
  · by_cases c2 : strStartsWith b.hash target = true
    · by_cases c3 : linkOk prev b
      · rw [if_neg (by simpa using c1), if_neg (by simpa using c2),
          if_neg (by simpa using c3)] at h
        exact ⟨⟨c1, c2, c3⟩, h⟩
      · rw [if_neg (by simpa using c1), if_neg (by simpa using c2),
          if_pos (by simpa using c3)] at h
        cases h
    · rw [if_neg (by simpa using c1), if_pos (by simpa using c2)] at h
      cases h
  · rw [if_pos (by simpa using c1)] at h
    cases h

/-- The previous-block reference after traversing `l` from context `prev`. -/
def prevAfter (prev : Option Block) : List Block → Option Block
  | [] => prev
  | b :: t => prevAfter (some b) t

theorem prevAfter_nil (prev : Option Block) : prevAfter prev [] = prev := rfl

theorem prevAfter_cons (prev : Option Block) (b : Block) (t : List Block) :
    prevAfter prev (b :: t) = prevAfter (some b) t := rfl

/-- `prevAfter` is the last element of the traversed list, when one exists. -/
theorem prevAfter_getLast (l : List Block) :
    ∀ (prev : Option Block) (x : Block), l.getLast? = some x →
      prevAfter prev l = some x := by
  induction l with
  | nil => intro prev x h; cases h
  | cons b t ih =>
    intro prev x h
    cases t with
    | nil =>
      simp only [List.getLast?_singleton, Option.some.injEq] at h
      subst h; rfl
    | cons c t' =>
      rw [List.getLast?_cons_cons] at h
      exact ih (some b) x h

/-- Validation of an extended sequence: once the prefix validates, the run
continues into the suffix with the index advanced and the last prefix block
as the link reference. -/
theorem isValidAux_append (target : String) :
    ∀ (l₁ : List Block) (i : Nat) (prev : Option Block) (l₂ : List Block),
      isValidAux target i prev l₁ = .ok →
      isValidAux target i prev (l₁ ++ l₂) =
        isValidAux target (i + l₁.length) (prevAfter prev l₁) l₂ := by
  intro l₁
  induction l₁ with
  | nil => intro i prev l₂ _; simp [prevAfter_nil]
  | cons b t ih =>
    intro i prev l₂ h
    obtain ⟨⟨h1, h2, h3⟩, htail⟩ := isValidAux_ok_head target i prev b t h
    rw [List.cons_append, isValidAux_cons_pass target i prev b (t ++ l₂) h1 h2 h3,
      ih (i + 1) (some b) l₂ htail, prevAfter_cons]
    have hlen : i + (b :: t).length = i + 1 + t.length := by
      simp only [List.length_cons]; omega
    rw [hlen]

/-- Replacing any block of a validating sequence by one whose stored hash
disagrees with its recomputed hash makes validation fail with a hash
mismatch exactly at that position (the mismatch check runs first). -/
theorem isValidAux_set_mismatch (target : String) :
    ∀ (l : List Block) (m i : Nat) (prev : Option Block) (b' : Block),
      isValidAux target i prev l = .ok → m < l.length →
      b'.hash ≠ b'.computeHash →
      isValidAux target i prev (l.set m b') = .fail (i + m) .hashMismatch := by
  intro l
  induction l with
  | nil => intro m i prev b' _ hm; exact absurd hm (by simp)
  | cons b t ih =>
    intro m i prev b' h hm hne
    obtain ⟨⟨h1, h2, h3⟩, htail⟩ := isValidAux_ok_head target i prev b t h
    cases m with
    | zero =>
      rw [List.set_cons_zero, isValidAux_cons, if_pos (by simpa using hne)]
      simp
    | succ k =>
      rw [List.set_cons_succ, isValidAux_cons_pass target i prev b (t.set k b') h1 h2 h3,
        ih k (i + 1) (some b) b' htail (by simpa using hm) hne]
      have : i + 1 + k = i + (k + 1) := by omega
      rw [this]

/-- Unfolding of one state-threaded `is_valid` loop iteration. -/
theorem isValidAuxS_cons (target : String) (i : Nat) (prev : Option Block)
    (b : Block) (rest : List Block) (bc : Blockchain) :
    isValidAuxS target i prev (b :: rest) bc =
      if b.hash ≠ b.computeHash then (.fail i .hashMismatch, bc)
      else if ¬ strStartsWith b.hash target then (.fail i .difficultyFail, bc)
      else if ¬ linkOk prev b then
        (.fail i (match prev with | none => .badGenesis | some _ => .brokenLink), bc)
      else isValidAuxS target (i + 1) (some b) rest bc := by
  cases prev <;> simp only [isValidAuxS, linkOk]

/-- The state-threaded validation returns its state untouched and computes
the same result as `isValidAux`. -/
theorem isValidAuxS_spec (target : String) :
    ∀ (l : List Block) (i : Nat) (prev : Option Block) (bc : Blockchain),
      isValidAuxS target i prev l bc = (isValidAux target i prev l, bc) := by
  intro l
  induction l with
  | nil => intro i prev bc; rfl
  | cons b t ih =>
    intro i prev bc
    rw [isValidAux_cons, isValidAuxS_cons]
    by_cases c1 : b.hash ≠ b.computeHash
    · rw [if_pos c1, if_pos c1]
    · rw [if_neg c1, if_neg c1]
      by_cases c2 : ¬ strStartsWith b.hash target
      · rw [if_pos c2, if_pos c2]
      · rw [if_neg c2, if_neg c2]
        by_cases c3 : ¬ linkOk prev b
        · rw [if_pos c3, if_pos c3]
        · rw [if_neg c3, if_neg c3]
          exact ih (i + 1) (some b) bc

/-- Decomposition of a successful `add_block`: the tip existed, the freshly
constructed block was mined successfully, and the result was appended. -/
theorem add_block_ok (bc : Blockchain) (data : Payload) (ts : String) (fuel : Nat)
    (bc' : Blockchain) (m : Block)
    (h : add_block bc data ts fuel = .ok (bc', m)) :
    ∃ t, bc.chain.getLast? = some t ∧
      mine bc.difficulty fuel (Block.init (t.index + 1) ts data t.hash) = .ok m ∧
      bc' = { bc with chain := bc.chain ++ [m] } := by
  unfold add_block at h
  cases hg : bc.chain.getLast? with
  | none => simp [hg] at h
  | some t =>
    simp only [hg] at h
    cases hm : mine bc.difficulty fuel (Block.init (t.index + 1) ts data t.hash) with
    | error e => rw [hm] at h; simp [Except.map] at h
    | ok mb =>
      rw [hm] at h
      simp only [Except.map, Except.ok.injEq, Prod.mk.injEq] at h
      obtain ⟨hbc, hmb⟩ := h
      subst hmb
      exact ⟨t, rfl, hm, hbc.symm⟩

/-- Decomposition of a successful chain construction: the chain holds the
single mined genesis block and the difficulty that was passed in. -/
theorem mkBlockchain_ok (d : Int) (ts : String) (fuel : Nat) (bc : Blockchain)
    (h : mkBlockchain d ts fuel = .ok bc) :
    ∃ g, bc = ⟨d, [g]⟩ ∧
      mine d fuel (Block.init 0 ts [("msg", .jstr "Genesis Block")] zeros64) = .ok g := by
  unfold mkBlockchain createGenesis at h
  cases hm : mine d fuel (Block.init 0 ts [("msg", .jstr "Genesis Block")] zeros64) with
  | error e => rw [hm] at h; simp [Except.map] at h
  | ok g =>
    rw [hm] at h
    simp only [Except.map, Except.ok.injEq] at h
    exact ⟨g, h.symm, rfl⟩

/-- A one-element sequence whose block passes all three checks validates. -/
theorem isValidAux_singleton (target : String) (i : Nat) (prev : Option Block)
    (g : Block) (h1 : g.hash = g.computeHash)
    (h2 : strStartsWith g.hash target = true) (h3 : linkOk prev g) :
    isValidAux target i prev [g] = .ok := by
  rw [isValidAux_cons_pass target i prev g [] h1 h2 h3]
  rfl

/-- A freshly constructed chain validates. -/
theorem mkBlockchain_valid (d : Int) (ts : String) (fuel : Nat) (bc : Blockchain)
    (h : mkBlockchain d ts fuel = .ok bc) : is_valid bc = .ok := by
  obtain ⟨g, hbc, hm⟩ := mkBlockchain_ok d ts fuel bc h
  obtain ⟨hd, hmx⟩ := mine_ok _ _ _ _ hm
  obtain ⟨s1, s2, _, _, _, s6, _, _⟩ := mineAux_spec (zeros d) fuel _ g hmx
  subst hbc
  exact isValidAux_singleton _ 0 none g s1 s2 (show g.previousHash = zeros64 from s6.trans rfl)

/-- `add_block` preserves chain validity. -/
theorem add_block_valid (bc : Blockchain) (data : Payload) (ts : String)
    (fuel : Nat) (bc' : Blockchain) (m : Block) (hv : is_valid bc = .ok)
    (h : add_block bc data ts fuel = .ok (bc', m)) : is_valid bc' = .ok := by
  obtain ⟨t, hg, hm, hbc⟩ := add_block_ok bc data ts fuel bc' m h
  obtain ⟨hd, hmx⟩ := mine_ok _ _ _ _ hm
  obtain ⟨s1, s2, _, _, _, s6, _, _⟩ := mineAux_spec (zeros bc.difficulty) fuel _ m hmx
  subst hbc
  show isValidAux (zeros bc.difficulty) 0 none (bc.chain ++ [m]) = .ok
  rw [isValidAux_append (zeros bc.difficulty) bc.chain 0 none [m] hv,
    prevAfter_getLast bc.chain none t hg]
  exact isValidAux_singleton _ _ _ m s1 s2 (show m.previousHash = t.hash from s6.trans rfl)

/-- Folding `add_block` over any payload sequence preserves validity. -/
theorem buildChain_valid :
    ∀ (items : List (Payload × String)) (bc bcF : Blockchain) (fuel : Nat),
      is_valid bc = .ok → buildChain bc fuel items = .ok bcF →
      is_valid bcF = .ok := by
  intro items
  induction items with
  | nil =>
    intro bc bcF fuel hv h
    cases h
    exact hv
  | cons it rest ih =>
    intro bc bcF fuel hv h
    obtain ⟨p, ts⟩ := it
    simp only [buildChain] at h
    cases ha : add_block bc p ts fuel with
    | error e => simp [ha] at h
    | ok r =>
      simp only [ha] at h
      exact ih r.1 bcF fuel (add_block_valid bc p ts fuel r.1 r.2 hv ha) h

/-- Folding `add_block` never changes the head (genesis) block. -/
theorem buildChain_head :
    ∀ (items : List (Payload × String)) (bc bcF : Blockchain) (fuel : Nat),
      bc.chain ≠ [] → buildChain bc fuel items = .ok bcF →
      bcF.chain.head? = bc.chain.head? := by
  intro items
  induction items with
  | nil =>
    intro bc bcF fuel _ h
    cases h
    rfl
  | cons it rest ih =>
    intro bc bcF fuel hne h
    obtain ⟨p, ts⟩ := it
    simp only [buildChain] at h
    cases ha : add_block bc p ts fuel with
    | error e => simp [ha] at h
    | ok r =>
      simp only [ha] at h
      obtain ⟨t, hg, hm, hbc⟩ := add_block_ok bc p ts fuel r.1 r.2 (by rw [ha])
      cases hc : bc.chain with
      | nil => exact absurd hc hne
      | cons b0 tl =>
        have h1 : r.1.chain.head? = bc.chain.head? := by
          rw [hbc]; simp [hc]
        have h2 : r.1.chain ≠ [] := by
          rw [hbc]; simp [hc]
        rw [ih r.1 bcF fuel h2 h, h1, hc]

/-- Validation never reports a hash mismatch on a sequence whose blocks all
store the digest of their own current header. -/
theorem isValidAux_no_mismatch (target : String) :
    ∀ (l : List Block) (i : Nat) (prev : Option Block),
      (∀ b ∈ l, b.hash = b.computeHash) →
      ∀ j, isValidAux target i prev l ≠ .fail j .hashMismatch := by
  intro l
  induction l with
  | nil => intro i prev _ j h; simp [isValidAux] at h
  | cons b t ih =>
    intro i prev hall j h
    rw [isValidAux_cons] at h
    have hb : b.hash = b.computeHash := hall b (by simp)
    rw [if_neg (by simpa using hb)] at h
    by_cases c2 : ¬ strStartsWith b.hash target
    · rw [if_pos c2] at h; simp at h
    · rw [if_neg c2] at h
      by_cases c3 : ¬ linkOk prev b
      · rw [if_pos c3] at h
        cases prev <;> simp at h
      · rw [if_neg c3] at h
        exact ih (i + 1) (some b) (fun x hx => hall x (by simp [hx])) j h

/-! ## Claim theorems -/

/-- C2: for every block and difficulty `d ≥ 0`, when `mine(d)` returns, the
stored hash equals the SHA-256 hex digest of the block's current canonical
header (final nonce included) and its first `d` hex characters are all `'0'`;
moreover each loop iteration stores the freshly computed digest before the
stopping test is evaluated (the unfolding equation of the loop). -/
theorem C2_mine_post (d : Int) (fuel : Nat) (b b' : Block) (hd : 0 ≤ d)
    (hm : mine d fuel b = .ok b') :
    b'.hash = b'.computeHash ∧
    List.isPrefixOf (List.replicate d.toNat '0') b'.hash.toList = true ∧
    mine d (fuel + 1) b =
      (if strStartsWith b.computeHash (zeros d) then .ok { b with hash := b.computeHash }
       else mine d fuel (mineNext b)) := by
  obtain ⟨_, hmx⟩ := mine_ok d fuel b b' hm
  obtain ⟨s1, s2, _⟩ := mineAux_spec (zeros d) fuel b b' hmx
  refine ⟨s1, s2, ?_⟩
  simp only [mine, if_pos hd, mineAux_succ]

/-- C2 witness: a concrete difficulty-0 mining run satisfying the theorem's
hypotheses. -/
theorem C2_mine_post_witness :
    testBlockMined.hash = testBlockMined.computeHash ∧
    List.isPrefixOf (List.replicate (0 : Int).toNat '0') testBlockMined.hash.toList = true ∧
    mine 0 2 testBlock =
      (if strStartsWith testBlock.computeHash (zeros 0) then
        .ok { testBlock with hash := testBlock.computeHash }
       else mine 0 1 (mineNext testBlock)) :=
  C2_mine_post 0 1 testBlock testBlockMined (by decide) rfl

/-- C10: `mine(d)` finds the minimal satisfying nonce — the final nonce is at
least the starting one, and every nonce strictly in between yields a digest
that does not begin with `d` zeros. -/
theorem C10_minimal_nonce (d : Int) (fuel : Nat) (b b' : Block)
    (hm : mine d fuel b = .ok b') :
    b.nonce ≤ b'.nonce ∧
    ∀ m, b.nonce ≤ m → m < b'.nonce →
      strStartsWith (Block.computeHash { b with nonce := m }) (zeros d) = false := by
  obtain ⟨_, hmx⟩ := mine_ok d fuel b b' hm
  obtain ⟨_, _, _, _, _, _, s7, s8⟩ := mineAux_spec (zeros d) fuel b b' hmx
  exact ⟨s7, s8⟩

/-- C10 witness: the theorem applied to a concrete difficulty-0 run. -/
theorem C10_minimal_nonce_witness : testBlock.nonce ≤ testBlockMined.nonce :=
  (C10_minimal_nonce 0 1 testBlock testBlockMined rfl).1

/-- C6 counterexample: the claim is false — there is no block and difficulty
for which a second `mine(d)` call changes the nonce, because the stored state
after a successful `mine` already satisfies the target, so the second call
returns on its first iteration. -/
theorem C6_counterexample :
    ¬ ∃ (d : Int) (f₁ f₂ : Nat) (b b' b'' : Block),
        mine d f₁ b = .ok b' ∧ mine d f₂ b' = .ok b'' ∧ b''.nonce ≠ b'.nonce := by
  rintro ⟨d, f₁, f₂, b, b', b'', h1, h2, hne⟩
  obtain ⟨hd, hmx1⟩ := mine_ok d f₁ b b' h1
  obtain ⟨s1, s2, _⟩ := mineAux_spec (zeros d) f₁ b b' hmx1
  obtain ⟨_, hmx2⟩ := mine_ok d f₂ b' b'' h2
  cases f₂ with
  | zero => simp [mineAux] at hmx2
  | succ k =>
    rw [mineAux_succ] at hmx2
    have hc : strStartsWith b'.computeHash (zeros d) = true := by rw [← s1]; exact s2
    rw [if_pos hc] at hmx2
    cases hmx2
    exact hne rfl

/-- C6 amended: `mine` is idempotent on a block a previous `mine` call has
completed — the second call returns immediately with the block unchanged
(nonce included), since the stored hash already satisfies the target. -/
theorem C6_amended_idempotent (d : Int) (f₁ f₂ : Nat) (b b' : Block)
    (h1 : mine d f₁ b = .ok b') (hf : 1 ≤ f₂) :
    mine d f₂ b' = .ok b' := by
  obtain ⟨hd, hmx1⟩ := mine_ok d f₁ b b' h1
  obtain ⟨s1, s2, _⟩ := mineAux_spec (zeros d) f₁ b b' hmx1
  cases f₂ with
  | zero => exact absurd hf (by omega)
  | succ k =>
    rw [mine, if_pos hd, mineAux_succ]
    have hc : strStartsWith b'.computeHash (zeros d) = true := by rw [← s1]; exact s2
    rw [if_pos hc, ← s1]

/-- C6 amended witness: re-mining the concrete mined block returns it
unchanged. -/
theorem C6_amended_idempotent_witness : mine 0 1 testBlockMined = .ok testBlockMined :=
  C6_amended_idempotent 0 1 1 testBlock testBlockMined rfl (by decide)

/-- C7: for every negative difficulty the mining operation fails at the API
boundary (`assert difficulty >= 0` raises), no clamping occurs, and chain
construction (which mines genesis) fails the same way. -/
theorem C7_negative_difficulty (d : Int) (hd : d < 0) (fuel : Nat) (b : Block)
    (ts : String) :
    mine d fuel b = .error .assertFailed ∧
    mkBlockchain d ts fuel = .error .assertFailed := by
  have hnd : ¬ 0 ≤ d := by omega
  constructor
  · rw [mine, if_neg hnd]
  · unfold mkBlockchain createGenesis
    rw [mine, if_neg hnd]
    rfl

/-- C7 witness: difficulty `-1` is refused by `mine` and by construction. -/
theorem C7_negative_difficulty_witness :
    mine (-1) 1 testBlock = .error .assertFailed ∧
    mkBlockchain (-1) "0" 1 = .error .assertFailed :=
  C7_negative_difficulty (-1) (by decide) 1 testBlock "0"

/-- C4: `append(payload)` constructs a block with index `tip.index + 1`,
`previous_hash = tip.hash` and nonce starting at 0, mines it to the chain's
difficulty, appends it as the new last element (length grows by one), and
returns it. -/
theorem C4_append_spec (bc : Blockchain) (data : Payload) (ts : String)
    (fuel : Nat) (bc' : Blockchain) (b t : Block)
    (ht : bc.chain.getLast? = some t)
    (h : add_block bc data ts fuel = .ok (bc', b)) :
    b.index = t.index + 1 ∧ b.previousHash = t.hash ∧
    (Block.init (t.index + 1) ts data t.hash).nonce = 0 ∧
    mine bc.difficulty fuel (Block.init (t.index + 1) ts data t.hash) = .ok b ∧
    bc'.chain = bc.chain ++ [b] ∧ bc'.chain.length = bc.chain.length + 1 ∧
    bc'.difficulty = bc.difficulty ∧
    strStartsWith b.hash (zeros bc.difficulty) = true := by
  obtain ⟨t', hg, hm, hbc⟩ := add_block_ok bc data ts fuel bc' b h
  rw [ht] at hg
  injection hg with he
  subst he
  obtain ⟨_, hmx⟩ := mine_ok _ _ _ _ hm
  obtain ⟨_, s2, s3, _, _, s6, _, _⟩ := mineAux_spec _ _ _ _ hmx
  subst hbc
  exact ⟨s3.trans rfl, s6.trans rfl, rfl, hm, rfl, by simp, rfl, s2⟩

/-- C4 witness: the concrete difficulty-0 append step from `bcG` to `bcG2`. -/
theorem C4_append_spec_witness : nextMined.index = genesisMined.index + 1 ∧
    nextMined.previousHash = genesisMined.hash :=
  ⟨(C4_append_spec bcG [("k", .jstr "x")] "1" 1 bcG2 nextMined genesisMined rfl rfl).1,
   (C4_append_spec bcG [("k", .jstr "x")] "1" 1 bcG2 nextMined genesisMined rfl rfl).2.1⟩

/-- C3: a chain built by construction followed by any number of `append`
calls, with no tamper, validates successfully, for any payload sequence and
any difficulty in `[0, 6]`. -/
theorem C3_untouched_chain_valid (d : Int) (_h0 : 0 ≤ d) (_h6 : d ≤ 6)
    (ts : String) (fuel fuel2 : Nat) (items : List (Payload × String))
    (bc0 bc : Blockchain) (hmk : mkBlockchain d ts fuel = .ok bc0)
    (hb : buildChain bc0 fuel2 items = .ok bc) :
    is_valid bc = .ok :=
  buildChain_valid items bc0 bc fuel2 (mkBlockchain_valid d ts fuel bc0 hmk) hb

/-- C3 witness: the concrete two-block difficulty-0 chain validates. -/
theorem C3_untouched_chain_valid_witness : is_valid bcG2 = .ok :=
  C3_untouched_chain_valid 0 (by decide) (by decide) "0" 1 1
    [([("k", JVal.jstr "x")], "1")] bcG bcG2 rfl rfl

/-- C1 counterexample: the claim quantifies over any replacement value `v`;
tampering block 1 of a valid two-block chain with the value the key already
holds succeeds yet leaves `validate()` successful, not a hash mismatch at 1. -/
theorem C1_counterexample :
    2 ≤ bcG2.chain.length ∧
    tamper bcG2 1 "k" (JVal.jstr "x") = .ok tamperedSameBC ∧
    is_valid tamperedSameBC = .ok ∧
    (ValResult.ok ≠ ValResult.fail 1 .hashMismatch) := by
  refine ⟨by decide, rfl, ?_, by decide⟩
  exact buildChain_valid [([("k", JVal.jstr "x")], "1")] bcG tamperedSameBC 1
    (mkBlockchain_valid 0 "0" 1 bcG rfl) rfl

/-- C1 amended: tampering an existing key of block `i` of a validating chain
makes `validate()` fail with a hash mismatch at index `i` and nowhere else,
provided the tampered block's recomputed digest differs from its stored
(stale) hash — which holds whenever the replacement changes the canonical
serialization and no SHA-256 collision occurs. -/
theorem C1_tamper_detected (bc : Blockchain) (i : Nat) (k : String) (v : JVal)
    (bc' : Blockchain) (_hlen : 2 ≤ bc.chain.length) (hok : is_valid bc = .ok)
    (ht : tamper bc i k v = .ok bc')
    (hmm : ∀ tb, bc'.chain[i]? = some tb → tb.hash ≠ tb.computeHash) :
    is_valid bc' = .fail i .hashMismatch := by
  unfold tamper at ht
  by_cases hi : i < bc.chain.length
  · rw [dif_pos hi] at ht
    by_cases hk : hasKey k bc.chain[i].data = true
    · rw [if_pos hk] at ht
      injection ht with hbc
      have hget : bc'.chain[i]? =
          some { bc.chain[i] with data := setKey k v bc.chain[i].data } := by
        rw [← hbc]
        exact List.getElem?_set_eq_of_lt _ hi
      have hne := hmm _ hget
      have := isValidAux_set_mismatch (zeros bc.difficulty) bc.chain i 0 none
        { bc.chain[i] with data := setKey k v bc.chain[i].data } hok hi hne
      rw [Nat.zero_add] at this
      rw [← hbc]
      exact this
    · rw [if_neg hk] at ht; cases ht
  · rw [dif_neg hi] at ht; cases ht

/-- C1 amended witness: the concrete tamper of block 1 of `bcG2` with a value
that changes the serialization is reported as a hash mismatch at index 1. -/
theorem C1_tamper_detected_witness : is_valid tamperedBC = .fail 1 .hashMismatch :=
  C1_tamper_detected bcG2 1 "k" (JVal.jstr "CHANGED") tamperedBC (by decide)
    (buildChain_valid [([("k", JVal.jstr "x")], "1")] bcG bcG2 1
      (mkBlockchain_valid 0 "0" 1 bcG rfl) rfl)
    rfl
    (by
      intro tb htb
      rw [show tamperedBC.chain[1]? = some tamperedBlock from rfl] at htb
      cases htb
      decide)

/-- C5 counterexample: a chain state whose element 0 has previous hash `"x"`
(not the zero sentinel) is rejected, but with reason hash mismatch — the
hash-consistency check runs before the genesis-link check — so `validate()`
does not report bad genesis link on every such chain. -/
theorem C5_counterexample :
    cexBC.chain.head?.map Block.previousHash = some "x" ∧
    ("x" : String) ≠ zeros64 ∧
    is_valid cexBC = .fail 0 .hashMismatch ∧
    (ValResult.fail 0 .hashMismatch ≠ ValResult.fail 0 .badGenesis) := by
  exact ⟨rfl, by decide, by decide, by decide⟩

/-- C5 amended: the genesis block of any chain built by construction and
appends has the 64-zero sentinel as previous hash, and `validate()` rejects
any chain state whose element 0 has a different previous hash — with reason
bad genesis link whenever block 0 passes the hash-consistency and difficulty
checks that run first. -/
theorem C5_genesis_invariant :
    (∀ (d : Int) (ts : String) (fuel fuel2 : Nat)
        (items : List (Payload × String)) (bc0 bc : Blockchain),
        mkBlockchain d ts fuel = .ok bc0 →
        buildChain bc0 fuel2 items = .ok bc →
        bc.chain.head?.map Block.previousHash = some zeros64) ∧
    (∀ (bc : Blockchain) (b : Block) (rest : List Block),
        bc.chain = b :: rest → b.previousHash ≠ zeros64 →
        is_valid bc ≠ .ok ∧
        (b.hash = b.computeHash → strStartsWith b.hash (zeros bc.difficulty) = true →
          is_valid bc = .fail 0 .badGenesis)) := by
  constructor
  · intro d ts fuel fuel2 items bc0 bc hmk hb
    obtain ⟨g, hbc0, hm⟩ := mkBlockchain_ok d ts fuel bc0 hmk
    obtain ⟨_, hmx⟩ := mine_ok _ _ _ _ hm
    obtain ⟨_, _, _, _, _, s6, _, _⟩ := mineAux_spec _ _ _ _ hmx
    have hh : bc.chain.head? = bc0.chain.head? :=
      buildChain_head items bc0 bc fuel2 (by rw [hbc0]; simp) hb
    rw [hh, hbc0]
    exact congrArg some (s6.trans rfl)
  · intro bc b rest hc hne
    have hv : is_valid bc = isValidAux (zeros bc.difficulty) 0 none (b :: rest) := by
      rw [is_valid, hc]
    constructor
    · rw [hv, isValidAux_cons]
      intro hcontra
      by_cases c1 : b.hash ≠ b.computeHash
      · rw [if_pos c1] at hcontra; cases hcontra
      · rw [if_neg c1] at hcontra
        by_cases c2 : ¬ strStartsWith b.hash (zeros bc.difficulty)
        · rw [if_pos c2] at hcontra; cases hcontra
        · rw [if_neg c2] at hcontra
          rw [if_pos (show ¬ linkOk none b by simpa [linkOk] using hne)] at hcontra
          cases hcontra
    · intro h1 h2
      rw [hv, isValidAux_cons, if_neg (by simpa using h1), if_neg (by simpa using h2),
        if_pos (show ¬ linkOk none b by simpa [linkOk] using hne)]

/-- C5 amended witness: both parts applied at concrete inputs — the built
chain `bcG2` has the sentinel at its head, and the corrupt `cexBC` is
rejected. -/
theorem C5_genesis_invariant_witness :
    bcG2.chain.head?.map Block.previousHash = some zeros64 ∧
    is_valid cexBC ≠ .ok :=
  ⟨C5_genesis_invariant.1 0 "0" 1 1 [([("k", JVal.jstr "x")], "1")] bcG bcG2 rfl rfl,
   (C5_genesis_invariant.2 cexBC cexBlock [] rfl (by decide)).1⟩

/-- C8: validation is purely observational — the state-threaded `is_valid`
returns the chain state untouched and agrees with `is_valid`, and running it
again on the returned state yields the same result. -/
theorem C8_validate_pure (bc : Blockchain) :
    is_validS bc = (is_valid bc, bc) ∧
    (is_validS ((is_validS bc).2)).1 = (is_validS bc).1 := by
  have h := isValidAuxS_spec (zeros bc.difficulty) bc.chain 0 none bc
  refine ⟨h, ?_⟩
  rw [show (is_validS bc).2 = bc from congrArg Prod.snd h]

/-- C9 counterexample: inside the mining loop the invariant "stored hash
equals the digest of the current header" is momentarily broken — after a
failing difficulty-1 test the loop continues from `mineNext testB9`, whose
stored hash is the digest for the previous nonce. -/
theorem C9_counterexample :
    strStartsWith testB9.computeHash (zeros 1) = false ∧
    mine 1 2 testB9 = mineAux (zeros 1) 1 (mineNext testB9) ∧
    (mineNext testB9).hash ≠ (mineNext testB9).computeHash := by
  have hc : strStartsWith testB9.computeHash (zeros 1) = false := by decide
  refine ⟨hc, ?_, by decide⟩
  rw [mine, if_pos (by decide : (0 : Int) ≤ 1), mineAux_succ, if_neg (by simp [hc])]

/-- C9 amended: the constructor establishes `hash = compute_hash()` (with
nonce 0), every successful `mine` re-establishes it on return, and therefore
the hash-consistency check of validation never flags a chain of untampered
blocks — mined or not.  (Between a failed test's nonce increment and the next
iteration's hash write, the stored hash is momentarily that of the previous
nonce; see the counterexample.) -/
theorem C9_hash_consistency :
    (∀ (i : Nat) (ts : String) (data : Payload) (ph : String),
        (Block.init i ts data ph).hash = (Block.init i ts data ph).computeHash) ∧
    (∀ (d : Int) (fuel : Nat) (b b' : Block),
        mine d fuel b = .ok b' → b'.hash = b'.computeHash) ∧
    (∀ (bc : Blockchain), (∀ b ∈ bc.chain, b.hash = b.computeHash) →
        ∀ j, is_valid bc ≠ .fail j .hashMismatch) := by
  refine ⟨?_, ?_, ?_⟩
  · intro i ts data ph
    exact (computeHash_set_hash
      { index := i, timestamp := ts, data := data, previousHash := ph,
        nonce := 0, hash := "" } _).symm
  · intro d fuel b b' hm
    obtain ⟨_, hmx⟩ := mine_ok d fuel b b' hm
    exact (mineAux_spec (zeros d) fuel b b' hmx).1
  · intro bc hall j
    exact isValidAux_no_mismatch (zeros bc.difficulty) bc.chain 0 none hall j

/-- C9 amended witness: the three parts at concrete inputs — the fresh
`genesisInit`, the mined `testBlockMined`, and the untampered chain `bcG2`. -/
theorem C9_hash_consistency_witness :
    genesisInit.hash = genesisInit.computeHash ∧
    testBlockMined.hash = testBlockMined.computeHash ∧
    is_valid bcG2 ≠ .fail 0 .hashMismatch :=
  ⟨C9_hash_consistency.1 0 "0" [("msg", .jstr "Genesis Block")] zeros64,
   C9_hash_consistency.2.1 0 1 testBlock testBlockMined rfl,
   C9_hash_consistency.2.2 bcG2
     (by
       intro b hb
       have h2 : b = genesisMined ∨ b = nextMined := by simpa [bcG2] using hb
       rcases h2 with h | h <;> subst h
       · exact (computeHash_set_hash genesisInit _).symm
       · exact (computeHash_set_hash nextInit _).symm)
     0⟩

end MiniChain
